import Mathlib

/-!
Verification of the fodmap-diary repository against its specification.

We shallowly embed the relevant routines:
* `extractJSON` from `src/llm.js` (brace-depth scan with backtracking),
  together with a model of the JavaScript `JSON.parse` grammar;
* `formatEntriesForAnalysis` from `src/llm.js`;
* the HTTP handlers of the server (`/api/add`, `/api/analyze`,
  `/api/duplicate`, `/api/update`, `/api/delete`) over an explicit
  key-value store modelling the `level` database.
-/

/-- A parsed JSON value, the result of `JSON.parse`.  Numbers are kept as
their source lexeme (the claims under study never compare distinct lexemes
of the same number); object fields are kept in source order. -/
inductive JsonValue where
  | null : JsonValue
  | bool (b : Bool) : JsonValue
  | num (lexeme : String) : JsonValue
  | str (s : String) : JsonValue
  | arr (elems : List JsonValue) : JsonValue
  | obj (fields : List (String × JsonValue)) : JsonValue

mutual

/-- Boolean equality on JSON values. -/
def jsonBeq : JsonValue → JsonValue → Bool
  | .null, .null => true
  | .bool a, .bool b => a == b
  | .num a, .num b => a == b
  | .str a, .str b => a == b
  | .arr a, .arr b => jsonListBeq a b
  | .obj a, .obj b => jsonFieldsBeq a b
  | _, _ => false

/-- Boolean equality on lists of JSON values. -/
def jsonListBeq : List JsonValue → List JsonValue → Bool
  | [], [] => true
  | a :: as, b :: bs => jsonBeq a b && jsonListBeq as bs
  | _, _ => false

/-- Boolean equality on JSON object field lists. -/
def jsonFieldsBeq : List (String × JsonValue) → List (String × JsonValue) → Bool
  | [], [] => true
  | (k1, v1) :: as, (k2, v2) :: bs => k1 == k2 && jsonBeq v1 v2 && jsonFieldsBeq as bs
  | _, _ => false

end

mutual

theorem jsonBeq_iff : ∀ a b : JsonValue, jsonBeq a b = true ↔ a = b
  | .null, b => by cases b <;> simp [jsonBeq]
  | .bool a, b => by cases b <;> simp [jsonBeq]
  | .num a, b => by cases b <;> simp [jsonBeq]
  | .str a, b => by cases b <;> simp [jsonBeq]
  | .arr a, b => by
      cases b <;> simp only [jsonBeq, Bool.false_eq_true, false_iff] <;>
        try exact fun h => JsonValue.noConfusion h
      rw [jsonListBeq_iff]
      exact ⟨fun h => by rw [h], fun h => by injection h⟩
  | .obj a, b => by
      cases b <;> simp only [jsonBeq, Bool.false_eq_true, false_iff] <;>
        try exact fun h => JsonValue.noConfusion h
      rw [jsonFieldsBeq_iff]
      exact ⟨fun h => by rw [h], fun h => by injection h⟩

theorem jsonListBeq_iff : ∀ as bs : List JsonValue, jsonListBeq as bs = true ↔ as = bs
  | [], [] => by simp [jsonListBeq]
  | [], _ :: _ => by simp [jsonListBeq]
  | _ :: _, [] => by simp [jsonListBeq]
  | a :: as, b :: bs => by
      simp only [jsonListBeq, Bool.and_eq_true, jsonBeq_iff a b, jsonListBeq_iff as bs,
        List.cons.injEq]

theorem jsonFieldsBeq_iff :
    ∀ as bs : List (String × JsonValue), jsonFieldsBeq as bs = true ↔ as = bs
  | [], [] => by simp [jsonFieldsBeq]
  | [], _ :: _ => by simp [jsonFieldsBeq]
  | _ :: _, [] => by simp [jsonFieldsBeq]
  | (k1, v1) :: as, (k2, v2) :: bs => by
      simp only [jsonFieldsBeq, Bool.and_eq_true, beq_iff_eq, jsonBeq_iff v1 v2,
        jsonFieldsBeq_iff as bs, List.cons.injEq, Prod.mk.injEq, and_assoc]

end

instance : DecidableEq JsonValue := fun a b => decidable_of_iff _ (jsonBeq_iff a b)

/-- JSON whitespace (per the `JSON.parse` grammar). -/
def isWsChar (c : Char) : Bool :=
  c = ' ' || c = '\t' || c = '\n' || c = '\r'

/-- Drop leading JSON whitespace. -/
def skipWs : List Char → List Char
  | [] => []
  | c :: cs => if isWsChar c then skipWs cs else c :: cs

/-- Value of a hex digit, `none` for non-hex characters. -/
def hexVal (c : Char) : Option Nat :=
  if c.isDigit then some (c.toNat - 48)
  else if 'a' ≤ c ∧ c ≤ 'f' then some (c.toNat - 97 + 10)
  else if 'A' ≤ c ∧ c ≤ 'F' then some (c.toNat - 65 + 10)
  else none

/-- Single-character JSON string escapes. -/
def escChar (e : Char) : Option Char :=
  if e = '"' then some '"'
  else if e = '\\' then some '\\'
  else if e = '/' then some '/'
  else if e = 'b' then some (Char.ofNat 8)
  else if e = 'f' then some (Char.ofNat 12)
  else if e = 'n' then some '\n'
  else if e = 'r' then some '\r'
  else if e = 't' then some '\t'
  else none

/-- Parse the body of a JSON string literal (after the opening quote) up to
and including the closing quote.  Returns the decoded content and the rest
of the input.  Fuel-indexed; the callers always supply enough fuel. -/
def parseStringBody : Nat → List Char → Option (List Char × List Char)
  | 0, _ => none
  | fuel + 1, cs =>
    match cs with
    | [] => none
    | c :: cs1 =>
      if c = '"' then some ([], cs1)
      else if c = '\\' then
        match cs1 with
        | [] => none
        | e :: cs2 =>
          if e = 'u' then
            match cs2 with
            | h1 :: h2 :: h3 :: h4 :: cs3 =>
              match hexVal h1, hexVal h2, hexVal h3, hexVal h4 with
              | some a, some b, some c2, some d =>
                match parseStringBody fuel cs3 with
                | some (s, r) => some (Char.ofNat (((a * 16 + b) * 16 + c2) * 16 + d) :: s, r)
                | none => none
              | _, _, _, _ => none
            | _ => none
          else
            match escChar e with
            | some ec =>
              match parseStringBody fuel cs2 with
              | some (s, r) => some (ec :: s, r)
              | none => none
            | none => none
      else if c.toNat < 32 then none
      else
        match parseStringBody fuel cs1 with
        | some (s, r) => some (c :: s, r)
        | none => none

/-- Longest prefix of decimal digits. -/
def takeDigits : List Char → List Char × List Char
  | [] => ([], [])
  | c :: cs =>
    if c.isDigit then
      let p := takeDigits cs
      (c :: p.1, p.2)
    else ([], c :: cs)

/-- Optional fraction part of a JSON number (`.` followed by digits). -/
def parseFrac (cs : List Char) : Option (List Char × List Char) :=
  match cs with
  | c :: cs1 =>
    if c = '.' then
      let p := takeDigits cs1
      if p.1 = [] then none else some (c :: p.1, p.2)
    else some ([], cs)
  | [] => some ([], [])

/-- Optional exponent sign. -/
def parseSign (cs : List Char) : List Char × List Char :=
  match cs with
  | s :: r => if s = '+' ∨ s = '-' then ([s], r) else ([], cs)
  | [] => ([], cs)

/-- Optional exponent part of a JSON number. -/
def parseExp (cs : List Char) : Option (List Char × List Char) :=
  match cs with
  | c :: cs1 =>
    if c = 'e' ∨ c = 'E' then
      let sp := parseSign cs1
      let p := takeDigits sp.2
      if p.1 = [] then none else some (c :: (sp.1 ++ p.1), p.2)
    else some ([], cs)
  | [] => some ([], [])

/-- Optional leading minus sign of a JSON number. -/
def parseMinus (cs : List Char) : List Char × List Char :=
  match cs with
  | c :: r => if c = '-' then ([c], r) else ([], cs)
  | [] => ([], cs)

/-- Parse a JSON number token, returning its lexeme and the rest. -/
def parseNumber (cs : List Char) : Option (List Char × List Char) :=
  let sp := parseMinus cs
  match sp.2 with
  | c :: r =>
    if c = '0' then
      match parseFrac r with
      | none => none
      | some (f, r1) =>
        match parseExp r1 with
        | none => none
        | some (x, r2) => some (sp.1 ++ c :: (f ++ x), r2)
    else if c.isDigit then
      let ds := takeDigits r
      match parseFrac ds.2 with
      | none => none
      | some (f, r1) =>
        match parseExp r1 with
        | none => none
        | some (x, r2) => some (sp.1 ++ c :: (ds.1 ++ f ++ x), r2)
    else none
  | [] => none

mutual

/-- Parse a JSON value at the head of the input (no leading whitespace),
returning the value and the unconsumed rest.  Fuel-indexed. -/
def parseValue : Nat → List Char → Option (JsonValue × List Char)
  | 0, _ => none
  | fuel + 1, cs =>
    match cs with
    | [] => none
    | c :: rest =>
      if c = '{' then
        match skipWs rest with
        | '}' :: r => some (.obj [], r)
        | cs1 =>
          match parseMembers fuel cs1 with
          | some (fs, r) => some (.obj fs, r)
          | none => none
      else if c = '[' then
        match skipWs rest with
        | ']' :: r => some (.arr [], r)
        | cs1 =>
          match parseElements fuel cs1 with
          | some (es, r) => some (.arr es, r)
          | none => none
      else if c = '"' then
        match parseStringBody (fuel + 1) rest with
        | some (s, r) => some (.str (String.mk s), r)
        | none => none
      else if c = 't' then
        match rest with
        | 'r' :: 'u' :: 'e' :: r => some (.bool true, r)
        | _ => none
      else if c = 'f' then
        match rest with
        | 'a' :: 'l' :: 's' :: 'e' :: r => some (.bool false, r)
        | _ => none
      else if c = 'n' then
        match rest with
        | 'u' :: 'l' :: 'l' :: r => some (.null, r)
        | _ => none
      else
        match parseNumber (c :: rest) with
        | some (lex, r) => some (.num (String.mk lex), r)
        | none => none

/-- Parse the members of a JSON object, positioned at the first key (after
whitespace), consuming through the closing `}`. -/
def parseMembers : Nat → List Char → Option (List (String × JsonValue) × List Char)
  | 0, _ => none
  | fuel + 1, cs =>
    match cs with
    | '"' :: rest =>
      match parseStringBody (fuel + 1) rest with
      | none => none
      | some (k, r1) =>
        match skipWs r1 with
        | ':' :: r2 =>
          match parseValue fuel (skipWs r2) with
          | none => none
          | some (v, r3) =>
            match skipWs r3 with
            | ',' :: r4 =>
              match parseMembers fuel (skipWs r4) with
              | some (fs, r5) => some ((String.mk k, v) :: fs, r5)
              | none => none
            | '}' :: r4 => some ([(String.mk k, v)], r4)
            | _ => none
        | _ => none
    | _ => none

/-- Parse the elements of a JSON array, positioned at the first element
(after whitespace), consuming through the closing `]`. -/
def parseElements : Nat → List Char → Option (List JsonValue × List Char)
  | 0, _ => none
  | fuel + 1, cs =>
    match parseValue fuel cs with
    | none => none
    | some (v, r1) =>
      match skipWs r1 with
      | ',' :: r2 =>
        match parseElements fuel (skipWs r2) with
        | some (es, r3) => some (v :: es, r3)
        | none => none
      | ']' :: r2 => some ([v], r2)
      | _ => none

end

/-- Model of `JSON.parse` on a character list: optional surrounding
whitespace around a single JSON value; anything else is a syntax error. -/
def parseJSONList (cs : List Char) : Option JsonValue :=
  match parseValue (cs.length + 1) (skipWs cs) with
  | some (v, r) => if skipWs r = [] then some v else none
  | none => none

/-- Model of `JSON.parse` on a string. -/
def parseJSON (s : String) : Option JsonValue :=
  parseJSONList s.data

example : parseJSON "\x7b\"b\":1\x7d" = some (.obj [("b", .num "1")]) := by decide
example : parseJSON "\x7b\"a\":\x7b\"b\":1\x7d\x7d" =
    some (.obj [("a", .obj [("b", .num "1")])]) := by decide
example : parseJSON " [1, true, null, \"x\"] " =
    some (.arr [.num "1", .bool true, .null, .str "x"]) := by decide
example : parseJSON "\x7b\"a\":\"\x7d\"\x7d" = some (.obj [("a", .str "\x7d")]) := by decide
example : parseJSON "\x7b\"a\":1" = none := by decide
example : parseJSON "" = none := by decide

/-! ### The `extractJSON` routine of `src/llm.js`

The JavaScript source scans the text left to right tracking a brace
nesting counter `depth` and a candidate start index `start` (−1 when
unset, here `Option Nat`).  On `{` at depth 0 it records the index; when
`depth` returns to 0 on a `}` with a recorded start it attempts
`JSON.parse` on the slice and, on failure, resets `start` and keeps
scanning.  The loop below recurses on the unscanned suffix while keeping
the whole text and the current index for slicing, which is the same
iteration expressed structurally. -/

/-- Failure conditions of `extractJSON`. -/
inductive ExtractErr where
  | emptyInput : ExtractErr
  | noJsonFound : ExtractErr
  deriving DecidableEq

instance {ε α : Type} [DecidableEq ε] [DecidableEq α] : DecidableEq (Except ε α) := fun x y =>
  match x, y with
  | .ok a, .ok b =>
    if h : a = b then isTrue (by rw [h]) else isFalse (fun hc => h (by injection hc))
  | .error a, .error b =>
    if h : a = b then isTrue (by rw [h]) else isFalse (fun hc => h (by injection hc))
  | .ok _, .error _ => isFalse (fun hc => Except.noConfusion hc)
  | .error _, .ok _ => isFalse (fun hc => Except.noConfusion hc)

/-- The scanning loop of `extractJSON` (`src/llm.js` lines 19–38). -/
def extractLoop (text : List Char) : List Char → Nat → Int → Option Nat → Option JsonValue
  | [], _, _, _ => none
  | c :: rest, i, depth, start =>
    if c = '{' then
      extractLoop text rest (i + 1) (depth + 1) (if depth = 0 then some i else start)
    else if c = '}' then
      match start with
      | some s =>
        if depth - 1 = 0 then
          match parseJSONList ((text.drop s).take (i + 1 - s)) with
          | some v => some v
          | none => extractLoop text rest (i + 1) (depth - 1) none
        else
          extractLoop text rest (i + 1) (depth - 1) (some s)
      | none => extractLoop text rest (i + 1) (depth - 1) none
    else
      extractLoop text rest (i + 1) depth start

/-- `extractJSON` from `src/llm.js`: empty input is rejected up front
(`if (!text) throw`), otherwise the scan either returns the first
successfully parsed balanced-brace slice or fails with `noJsonFound`. -/
def extractJSON (s : String) : Except ExtractErr JsonValue :=
  if s.data = [] then .error .emptyInput
  else
    match extractLoop s.data s.data 0 0 none with
    | some v => .ok v
    | none => .error .noJsonFound

/-- The slices that the scanning loop would submit to `JSON.parse`,
assuming every attempt fails (the loop itself stops at the first slice
that parses; this list is the full failure-path sequence of candidates). -/
def candSlices (text : List Char) : List Char → Nat → Int → Option Nat → List (List Char)
  | [], _, _, _ => []
  | c :: rest, i, depth, start =>
    if c = '{' then
      candSlices text rest (i + 1) (depth + 1) (if depth = 0 then some i else start)
    else if c = '}' then
      match start with
      | some s =>
        if depth - 1 = 0 then
          ((text.drop s).take (i + 1 - s)) :: candSlices text rest (i + 1) (depth - 1) none
        else
          candSlices text rest (i + 1) (depth - 1) (some s)
      | none => candSlices text rest (i + 1) (depth - 1) none
    else
      candSlices text rest (i + 1) depth start

/-- The candidate slices tried by `extractJSON` on input `s`. -/
def extractCandidates (s : String) : List (List Char) :=
  candSlices s.data s.data 0 0 none

example : extractJSON "\x7d \x7b\"a\":\x7b\"b\":1\x7d\x7d" = .ok (.obj [("b", .num "1")]) := by decide
example : extractJSON "x \x7b\"a\":\x7b\"b\":1\x7d\x7d" =
    .ok (.obj [("a", .obj [("b", .num "1")])]) := by decide
example : extractJSON "\x7b\"a\":\"\x7d\"\x7d" = .error .noJsonFound := by decide
example : extractJSON "" = .error .emptyInput := by decide
example : extractJSON "no braces here" = .error .noJsonFound := by decide
example : extractJSON "pre \x7b\"a\":1\x7d post" = .ok (.obj [("a", .num "1")]) := by decide

/-! ### Brace-depth bookkeeping used in the correctness proofs -/

/-- No `{` or `}` occurs in the character list. -/
def NoBrace (cs : List Char) : Prop := ∀ c ∈ cs, c ≠ '{' ∧ c ≠ '}'

instance (cs : List Char) : Decidable (NoBrace cs) :=
  inferInstanceAs (Decidable (∀ c ∈ cs, c ≠ '{' ∧ c ≠ '}'))

/-- Depth contribution of one character in the scan of `extractJSON`. -/
def stepD (c : Char) : Int :=
  if c = '{' then 1 else if c = '}' then -1 else 0

/-- Final depth after scanning `cs` starting from depth `d`. -/
def runD : Int → List Char → Int
  | d, [] => d
  | d, c :: cs => runD (d + stepD c) cs

/-- Every depth reached strictly inside the scan of `cs` from depth `d`
(that is, after each character) is at least `k`. -/
def allGe (k : Int) : Int → List Char → Prop
  | _, [] => True
  | d, c :: cs => k ≤ d + stepD c ∧ allGe k (d + stepD c) cs

theorem runD_append (a b : List Char) : ∀ d, runD d (a ++ b) = runD (runD d a) b := by
  induction a with
  | nil => intro d; rfl
  | cons c cs ih => intro d; simp only [List.cons_append, runD]; exact ih _

theorem runD_shift (cs : List Char) : ∀ d t, runD (d + t) cs = runD d cs + t := by
  induction cs with
  | nil => intro d t; rfl
  | cons c cs ih =>
    intro d t
    simp only [runD]
    rw [show d + t + stepD c = (d + stepD c) + t by ring]
    exact ih _ _

theorem allGe_append (k : Int) (a b : List Char) :
    ∀ d, allGe k d (a ++ b) ↔ allGe k d a ∧ allGe k (runD d a) b := by
  induction a with
  | nil => intro d; simp [allGe, runD]
  | cons c cs ih =>
    intro d
    simp only [List.cons_append, allGe, runD, List.append_eq, ih, and_assoc]

theorem allGe_shift (k : Int) (cs : List Char) :
    ∀ d t, allGe k d cs → allGe (k + t) (d + t) cs := by
  induction cs with
  | nil => intro d t _; trivial
  | cons c cs ih =>
    intro d t h
    obtain ⟨h1, h2⟩ := h
    refine ⟨by omega, ?_⟩
    rw [show d + t + stepD c = (d + stepD c) + t by ring]
    exact ih _ _ h2

theorem allGe_mono (k k' : Int) (cs : List Char) (hk : k' ≤ k) :
    ∀ d, allGe k d cs → allGe k' d cs := by
  induction cs with
  | nil => intro d _; trivial
  | cons c cs ih => intro d h; exact ⟨le_trans hk h.1, ih _ h.2⟩

theorem stepD_of_noBrace {c : Char} (h : c ≠ '{' ∧ c ≠ '}') : stepD c = 0 := by
  simp [stepD, h.1, h.2]

theorem runD_of_noBrace (cs : List Char) (h : NoBrace cs) : ∀ d, runD d cs = d := by
  induction cs with
  | nil => intro d; rfl
  | cons c cs ih =>
    intro d
    have hc := h c (List.mem_cons_self _ _)
    have hcs : NoBrace cs := fun x hx => h x (List.mem_cons_of_mem _ hx)
    simp only [runD, stepD_of_noBrace hc, add_zero]
    exact ih hcs d

theorem allGe_of_noBrace (k : Int) (cs : List Char) (h : NoBrace cs) :
    ∀ d, k ≤ d → allGe k d cs := by
  induction cs with
  | nil => intro d _; trivial
  | cons c cs ih =>
    intro d hd
    have hc := h c (List.mem_cons_self _ _)
    have hcs : NoBrace cs := fun x hx => h x (List.mem_cons_of_mem _ hx)
    simp only [allGe, stepD_of_noBrace hc, add_zero]
    exact ⟨hd, ih hcs d hd⟩

/-! ### Behaviour of the scanning loop -/

/-- Scanning a brace-free segment leaves the loop state unchanged apart
from advancing the index. -/
theorem extractLoop_noBrace_seg (text : List Char) :
    ∀ seg, NoBrace seg → ∀ rest i d st,
      extractLoop text (seg ++ rest) i d st = extractLoop text rest (i + seg.length) d st := by
  intro seg
  induction seg with
  | nil => intro _ rest i d st; simp
  | cons c cs ih =>
    intro h rest i d st
    have hc := h c (List.mem_cons_self _ _)
    have hcs : NoBrace cs := fun x hx => h x (List.mem_cons_of_mem _ hx)
    simp only [List.cons_append, extractLoop, if_neg hc.1, if_neg hc.2, List.append_eq]
    rw [ih hcs rest (i + 1) d st]
    congr 1
    simp only [List.length_cons]
    omega

/-- The loop returns `none` exactly when every candidate slice on the
failure path fails to parse. -/
theorem extractLoop_eq_none_iff (text : List Char) :
    ∀ cs i d st, extractLoop text cs i d st = none ↔
      ∀ sl ∈ candSlices text cs i d st, parseJSONList sl = none := by
  intro cs
  induction cs with
  | nil => intro i d st; simp [extractLoop, candSlices]
  | cons c rest ih =>
    intro i d st
    simp only [extractLoop, candSlices]
    by_cases h1 : c = '{'
    · simp only [if_pos h1]
      exact ih ..
    · simp only [if_neg h1]
      by_cases h2 : c = '}'
      · simp only [if_pos h2]
        cases st with
        | none => exact ih ..
        | some s =>
          by_cases h3 : d - 1 = 0
          · simp only [if_pos h3]
            cases hp : parseJSONList ((text.drop s).take (i + 1 - s)) with
            | some v =>
              simp only [hp]
              constructor
              · intro hfalse; exact Option.noConfusion hfalse
              · intro hall
                have := hall _ (List.mem_cons_self _ _)
                rw [hp] at this
                exact Option.noConfusion this
            | none =>
              simp only [hp, List.mem_cons, forall_eq_or_imp, true_and]
              exact ih ..
          · simp only [if_neg h3]
            exact ih ..
      · simp only [if_neg h2]
        exact ih ..

/-- A brace-free input produces no candidates and the loop fails. -/
theorem extractLoop_braceless (text cs : List Char) (h : NoBrace cs) (i : Nat) (d : Int)
    (st : Option Nat) : extractLoop text cs i d st = none := by
  have h1 := extractLoop_noBrace_seg text cs h [] i d st
  rw [List.append_nil] at h1
  rw [h1]
  rfl

/-! ### Claim C3: failure conditions of `extractJSON` -/

/-- C3: `extractJSON` fails with `emptyInput` exactly on the empty string;
it fails with `noJsonFound` exactly when the input is nonempty and no
balanced-brace candidate slice parses as JSON — in particular on every
nonempty brace-free string — and in every other case it returns a parsed
value. -/
theorem extractJSON_error_conditions (t : String) :
    (extractJSON t = .error .emptyInput ↔ t = "") ∧
    (extractJSON t = .error .noJsonFound ↔
      (t ≠ "" ∧ ∀ sl ∈ extractCandidates t, parseJSONList sl = none)) ∧
    ((t ≠ "" ∧ ∀ c ∈ t.data, c ≠ '{' ∧ c ≠ '}') → extractJSON t = .error .noJsonFound) ∧
    ((t ≠ "" ∧ ¬ ∀ sl ∈ extractCandidates t, parseJSONList sl = none) →
      ∃ v, extractJSON t = .ok v) := by
  by_cases ht : t = ""
  · subst ht
    exact ⟨by decide, by decide, fun h => absurd rfl h.1, fun h => absurd rfl h.1⟩
  · have htd : ¬ t.data = [] := fun h => ht (String.ext (h.trans rfl))
    have hE : extractJSON t = (match extractLoop t.data t.data 0 0 none with
        | some v => Except.ok v
        | none => Except.error ExtractErr.noJsonFound) := by
      unfold extractJSON
      rw [if_neg htd]
    have hiff := extractLoop_eq_none_iff t.data t.data 0 0 none
    cases hl : extractLoop t.data t.data 0 0 none with
    | some v =>
      rw [hl] at hE hiff
      have hnall : ¬ ∀ sl ∈ extractCandidates t, parseJSONList sl = none :=
        fun hall => Option.noConfusion (hiff.mpr hall)
      refine ⟨?_, ?_, ?_, ?_⟩
      · rw [hE]
        exact ⟨fun h => Except.noConfusion h, fun h => absurd h ht⟩
      · rw [hE]
        exact ⟨fun h => Except.noConfusion h, fun h => absurd h.2 hnall⟩
      · intro h
        exfalso
        have h2 := extractLoop_braceless t.data t.data h.2 0 0 none
        rw [hl] at h2
        exact Option.noConfusion h2
      · intro _
        exact ⟨v, hE⟩
    | none =>
      rw [hl] at hE hiff
      have hall : ∀ sl ∈ extractCandidates t, parseJSONList sl = none := hiff.mp rfl
      refine ⟨?_, ?_, ?_, ?_⟩
      · rw [hE]
        constructor
        · intro h
          injection h with h'
          exact ExtractErr.noConfusion h'
        · intro h
          exact absurd h ht
      · rw [hE]
        exact ⟨fun _ => ⟨ht, hall⟩, fun _ => rfl⟩
      · intro _
        exact hE
      · intro h
        exact absurd hall h.2
/-- Witness for C3: a concrete nonempty brace-free input fails with
`noJsonFound`. -/
theorem extractJSON_error_conditions_witness :
    extractJSON "plain text" = .error .noJsonFound :=
  (extractJSON_error_conditions "plain text").2.2.1 ⟨by decide, by decide⟩

/-! ### Claim C1: stray `}` before a nested object -/

/-- C1 counterexample: on `} {"a":{"b":1}}` (the claim's own example) the
extractor returns the inner object `{"b":1}`, not the outer object
`{"a":{"b":1}}`, even though the outer substring parses as JSON: the stray
`}` drives the depth counter to −1, so the outer `{` is not recorded as a
candidate start. -/
theorem extractJSON_stray_brace_returns_inner :
    extractJSON "\x7d \x7b\"a\":\x7b\"b\":1\x7d\x7d" = .ok (.obj [("b", .num "1")]) ∧
    parseJSON "\x7b\"a\":\x7b\"b\":1\x7d\x7d" = some (.obj [("a", .obj [("b", .num "1")])]) ∧
    extractJSON "\x7d \x7b\"a\":\x7b\"b\":1\x7d\x7d" ≠ .ok (.obj [("a", .obj [("b", .num "1")])]) :=
  ⟨by decide, by decide, by decide⟩

/-- C1 amended: with a stray `}` in the prose before the object the depth
baseline is shifted and the extractor returns the inner object; when the
preceding prose contains no stray brace, the outer object with nested
braces is returned. -/
theorem extractJSON_stray_brace_amended :
    extractJSON "\x7d \x7b\"a\":\x7b\"b\":1\x7d\x7d" = .ok (.obj [("b", .num "1")]) ∧
    extractJSON "x \x7b\"a\":\x7b\"b\":1\x7d\x7d" = .ok (.obj [("a", .obj [("b", .num "1")])]) :=
  ⟨by decide, by decide⟩

/-! ### Claim C2: infrastructure

For the amended universal statement we show that when a JSON object text
has all of its braces structural (equivalently here: none of its string
literals contains a brace character), the depth scan reaches zero for the
first time exactly at the object's closing brace. -/

/-- A string contains no brace characters. -/
def strNoBraces (s : String) : Bool :=
  s.data.all (fun c => !(c == '{') && !(c == '}'))

mutual

/-- No string literal anywhere in the value (keys included) contains a
brace character.  For a value parsed from text `J` this guarantees that
every brace of `J` is structural. -/
def jsonNoBraceStrings : JsonValue → Bool
  | .null => true
  | .bool _ => true
  | .num _ => true
  | .str s => strNoBraces s
  | .arr es => jsonListNoBraceStrings es
  | .obj fs => jsonFieldsNoBraceStrings fs

/-- `jsonNoBraceStrings` over a list of values. -/
def jsonListNoBraceStrings : List JsonValue → Bool
  | [] => true
  | v :: vs => jsonNoBraceStrings v && jsonListNoBraceStrings vs

/-- `jsonNoBraceStrings` over an object's field list. -/
def jsonFieldsNoBraceStrings : List (String × JsonValue) → Bool
  | [] => true
  | (k, v) :: fs => strNoBraces k && jsonNoBraceStrings v && jsonFieldsNoBraceStrings fs

end

theorem noBrace_nil : NoBrace [] := fun _ h => absurd h (List.not_mem_nil _)

theorem noBrace_cons {c : Char} {cs : List Char} :
    NoBrace (c :: cs) ↔ (c ≠ '{' ∧ c ≠ '}') ∧ NoBrace cs := by
  constructor
  · intro h
    exact ⟨h c (List.mem_cons_self _ _), fun x hx => h x (List.mem_cons_of_mem _ hx)⟩
  · rintro ⟨hc, hcs⟩ x hx
    rcases List.mem_cons.mp hx with h | h
    · subst h; exact hc
    · exact hcs x h

theorem noBrace_append {a b : List Char} :
    NoBrace (a ++ b) ↔ NoBrace a ∧ NoBrace b := by
  constructor
  · intro h
    exact ⟨fun x hx => h x (List.mem_append_left _ hx),
           fun x hx => h x (List.mem_append_right _ hx)⟩
  · rintro ⟨ha, hb⟩ x hx
    rcases List.mem_append.mp hx with h | h
    · exact ha x h
    · exact hb x h

theorem strNoBraces_iff (s : String) : strNoBraces s = true ↔ NoBrace s.data := by
  simp only [strNoBraces, List.all_eq_true, Bool.and_eq_true, Bool.not_eq_eq_eq_not,
    Bool.not_true, beq_eq_false_iff_ne, NoBrace]

theorem isWsChar_ne_brace {c : Char} (h : isWsChar c = true) : c ≠ '{' ∧ c ≠ '}' := by
  constructor <;> rintro rfl <;> exact absurd h (by decide)

theorem hexVal_ne_brace {c : Char} {n : Nat} (h : hexVal c = some n) : c ≠ '{' ∧ c ≠ '}' := by
  constructor <;> rintro rfl
  · rw [show hexVal '{' = none from by decide] at h
    exact Option.noConfusion h
  · rw [show hexVal '}' = none from by decide] at h
    exact Option.noConfusion h

theorem escChar_ne_brace {e ec : Char} (h : escChar e = some ec) : e ≠ '{' ∧ e ≠ '}' := by
  constructor <;> rintro rfl
  · rw [show escChar '{' = none from by decide] at h
    exact Option.noConfusion h
  · rw [show escChar '}' = none from by decide] at h
    exact Option.noConfusion h

theorem isDigit_ne_brace {c : Char} (h : c.isDigit = true) : c ≠ '{' ∧ c ≠ '}' := by
  constructor <;> rintro rfl <;> exact absurd h (by decide)

/-- `skipWs` drops a whitespace prefix. -/
theorem skipWs_consumed (cs : List Char) :
    ∃ w, cs = w ++ skipWs cs ∧ NoBrace w := by
  induction cs with
  | nil => exact ⟨[], rfl, noBrace_nil⟩
  | cons c cs ih =>
    by_cases h : isWsChar c
    · obtain ⟨w, hw, hnb⟩ := ih
      refine ⟨c :: w, ?_, noBrace_cons.mpr ⟨isWsChar_ne_brace h, hnb⟩⟩
      simp only [skipWs, if_pos h, List.cons_append]
      exact congrArg (c :: ·) hw
    · refine ⟨[], ?_, noBrace_nil⟩
      simp [skipWs, if_neg h]

/-- The characters consumed by a successful string-body parse form a
prefix; if the decoded content has no braces then neither does the
consumed text (escape sequences never contain brace characters). -/
theorem parseStringBody_consumed :
    ∀ fuel cs content rest, parseStringBody fuel cs = some (content, rest) →
      ∃ pre, cs = pre ++ rest ∧ (NoBrace content → NoBrace pre) := by
  intro fuel
  induction fuel with
  | zero =>
    intro cs content rest h
    exact absurd h (by simp [parseStringBody])
  | succ fuel ih =>
    intro cs content rest h
    simp only [parseStringBody] at h
    split at h
    · exact Option.noConfusion h
    · rename_i c cs1
      split at h
      · rename_i h1
        simp only [Option.some.injEq, Prod.mk.injEq] at h
        obtain ⟨hc, hr⟩ := h
        subst hr
        subst h1
        exact ⟨['"'], rfl, fun _ => noBrace_cons.mpr ⟨by decide, noBrace_nil⟩⟩
      · split at h
        · rename_i h1 h2
          split at h
          · exact Option.noConfusion h
          · rename_i e cs2
            split at h
            · rename_i h3
              split at h
              · rename_i x1 x2 x3 x4 cs3
                split at h
                · rename_i a b c2 d hx1 hx2 hx3 hx4
                  split at h
                  · rename_i s r hrec
                    simp only [Option.some.injEq, Prod.mk.injEq] at h
                    obtain ⟨hc, hr⟩ := h
                    subst hr
                    obtain ⟨pre', hpre', hnb'⟩ := ih cs3 s r hrec
                    subst h2
                    subst h3
                    refine ⟨'\\' :: 'u' :: x1 :: x2 :: x3 :: x4 :: pre', by simp [hpre'], ?_⟩
                    intro hcont
                    rw [← hc] at hcont
                    have hs := (noBrace_cons.mp hcont).2
                    exact noBrace_cons.mpr ⟨by decide, noBrace_cons.mpr ⟨by decide,
                      noBrace_cons.mpr ⟨hexVal_ne_brace hx1, noBrace_cons.mpr
                        ⟨hexVal_ne_brace hx2, noBrace_cons.mpr ⟨hexVal_ne_brace hx3,
                          noBrace_cons.mpr ⟨hexVal_ne_brace hx4, hnb' hs⟩⟩⟩⟩⟩⟩
                  · exact Option.noConfusion h
                · exact Option.noConfusion h
              · exact Option.noConfusion h
            · rename_i h3
              split at h
              · rename_i ec hesc
                split at h
                · rename_i s r hrec
                  simp only [Option.some.injEq, Prod.mk.injEq] at h
                  obtain ⟨hc, hr⟩ := h
                  subst hr
                  obtain ⟨pre', hpre', hnb'⟩ := ih cs2 s r hrec
                  subst h2
                  refine ⟨'\\' :: e :: pre', by simp [hpre'], ?_⟩
                  intro hcont
                  rw [← hc] at hcont
                  have hs := (noBrace_cons.mp hcont).2
                  exact noBrace_cons.mpr ⟨by decide,
                    noBrace_cons.mpr ⟨escChar_ne_brace hesc, hnb' hs⟩⟩
                · exact Option.noConfusion h
              · exact Option.noConfusion h
        · split at h
          · exact Option.noConfusion h
          · split at h
            · rename_i s r hrec
              simp only [Option.some.injEq, Prod.mk.injEq] at h
              obtain ⟨hc, hr⟩ := h
              subst hr
              obtain ⟨pre', hpre', hnb'⟩ := ih cs1 s r hrec
              refine ⟨c :: pre', by simp [hpre'], ?_⟩
              intro hcont
              rw [← hc] at hcont
              have hcc := noBrace_cons.mp hcont
              exact noBrace_cons.mpr ⟨hcc.1, hnb' hcc.2⟩
            · exact Option.noConfusion h

/-- `takeDigits` consumes a brace-free digit prefix. -/
theorem takeDigits_consumed (cs : List Char) :
    cs = (takeDigits cs).1 ++ (takeDigits cs).2 ∧ NoBrace (takeDigits cs).1 := by
  induction cs with
  | nil => exact ⟨rfl, noBrace_nil⟩
  | cons c cs ih =>
    by_cases h : c.isDigit
    · simp only [takeDigits, if_pos h]
      exact ⟨by rw [List.cons_append, ← ih.1],
        noBrace_cons.mpr ⟨isDigit_ne_brace h, ih.2⟩⟩
    · simp only [takeDigits, if_neg h]
      exact ⟨rfl, noBrace_nil⟩

/-- `parseSign` consumes a brace-free (possibly empty) sign prefix. -/
theorem parseSign_consumed (cs : List Char) :
    cs = (parseSign cs).1 ++ (parseSign cs).2 ∧ NoBrace (parseSign cs).1 := by
  cases cs with
  | nil => exact ⟨rfl, noBrace_nil⟩
  | cons s r =>
    by_cases h : s = '+' ∨ s = '-'
    · simp only [parseSign, if_pos h]
      refine ⟨rfl, noBrace_cons.mpr ⟨?_, noBrace_nil⟩⟩
      rcases h with h | h <;> subst h <;> exact ⟨by decide, by decide⟩
    · simp only [parseSign, if_neg h]
      exact ⟨rfl, noBrace_nil⟩

/-- `parseMinus` consumes a brace-free (possibly empty) sign prefix. -/
theorem parseMinus_consumed (cs : List Char) :
    cs = (parseMinus cs).1 ++ (parseMinus cs).2 ∧ NoBrace (parseMinus cs).1 := by
  cases cs with
  | nil => exact ⟨rfl, noBrace_nil⟩
  | cons c r =>
    by_cases h : c = '-'
    · simp only [parseMinus, if_pos h]
      exact ⟨rfl, noBrace_cons.mpr ⟨by subst h; exact ⟨by decide, by decide⟩, noBrace_nil⟩⟩
    · simp only [parseMinus, if_neg h]
      exact ⟨rfl, noBrace_nil⟩

/-- A successful fraction parse consumes a brace-free prefix. -/
theorem parseFrac_consumed {cs f r : List Char} (h : parseFrac cs = some (f, r)) :
    cs = f ++ r ∧ NoBrace f := by
  cases cs with
  | nil =>
    simp only [parseFrac, Option.some.injEq, Prod.mk.injEq] at h
    obtain ⟨hf, hr⟩ := h
    subst hf
    subst hr
    exact ⟨rfl, noBrace_nil⟩
  | cons c cs1 =>
    simp only [parseFrac] at h
    split at h
    · rename_i h1
      split at h
      · exact Option.noConfusion h
      · simp only [Option.some.injEq, Prod.mk.injEq] at h
        obtain ⟨hf, hr⟩ := h
        subst hf
        subst hr
        have td := takeDigits_consumed cs1
        refine ⟨by rw [List.cons_append, ← td.1], ?_⟩
        exact noBrace_cons.mpr ⟨by subst h1; exact ⟨by decide, by decide⟩, td.2⟩
    · simp only [Option.some.injEq, Prod.mk.injEq] at h
      obtain ⟨hf, hr⟩ := h
      subst hf
      subst hr
      exact ⟨rfl, noBrace_nil⟩

/-- A successful exponent parse consumes a brace-free prefix. -/
theorem parseExp_consumed {cs x r : List Char} (h : parseExp cs = some (x, r)) :
    cs = x ++ r ∧ NoBrace x := by
  cases cs with
  | nil =>
    simp only [parseExp, Option.some.injEq, Prod.mk.injEq] at h
    obtain ⟨hf, hr⟩ := h
    subst hf
    subst hr
    exact ⟨rfl, noBrace_nil⟩
  | cons c cs1 =>
    simp only [parseExp] at h
    split at h
    · rename_i h1
      split at h
      · exact Option.noConfusion h
      · simp only [Option.some.injEq, Prod.mk.injEq] at h
        obtain ⟨hf, hr⟩ := h
        subst hf
        subst hr
        have hs := parseSign_consumed cs1
        have td := takeDigits_consumed (parseSign cs1).2
        constructor
        · rw [List.cons_append, List.append_assoc, ← td.1, ← hs.1]
        · refine noBrace_cons.mpr ⟨?_, noBrace_append.mpr ⟨hs.2, td.2⟩⟩
          rcases h1 with h1 | h1 <;> subst h1 <;> exact ⟨by decide, by decide⟩
    · simp only [Option.some.injEq, Prod.mk.injEq] at h
      obtain ⟨hf, hr⟩ := h
      subst hf
      subst hr
      exact ⟨rfl, noBrace_nil⟩

/-- A successful number parse consumes exactly its brace-free lexeme. -/
theorem parseNumber_consumed {cs lex r : List Char} (h : parseNumber cs = some (lex, r)) :
    cs = lex ++ r ∧ NoBrace lex := by
  simp only [parseNumber] at h
  split at h
  · rename_i c r0 heq
    have hm := parseMinus_consumed cs
    split at h
    · rename_i h0
      split at h
      · exact Option.noConfusion h
      · rename_i f r1 hf
        split at h
        · exact Option.noConfusion h
        · rename_i x r2 hx
          simp only [Option.some.injEq, Prod.mk.injEq] at h
          obtain ⟨hl, hr⟩ := h
          subst hl
          subst hr
          have hfc := parseFrac_consumed hf
          have hxc := parseExp_consumed hx
          constructor
          · conv_lhs => rw [hm.1]
            rw [heq, hfc.1, hxc.1]
            simp
          · refine noBrace_append.mpr ⟨hm.2, noBrace_cons.mpr
              ⟨by subst h0; exact ⟨by decide, by decide⟩,
               noBrace_append.mpr ⟨hfc.2, hxc.2⟩⟩⟩
    · split at h
      · rename_i h0 h1
        split at h
        · exact Option.noConfusion h
        · rename_i f r1 hf
          split at h
          · exact Option.noConfusion h
          · rename_i x r2 hx
            simp only [Option.some.injEq, Prod.mk.injEq] at h
            obtain ⟨hl, hr⟩ := h
            subst hl
            subst hr
            have htd := takeDigits_consumed r0
            have hfc := parseFrac_consumed hf
            have hxc := parseExp_consumed hx
            constructor
            · conv_lhs => rw [hm.1]
              rw [heq]
              conv_lhs => rw [htd.1]
              rw [hfc.1, hxc.1]
              simp
            · refine noBrace_append.mpr ⟨hm.2, noBrace_cons.mpr
                ⟨isDigit_ne_brace h1,
                 noBrace_append.mpr ⟨noBrace_append.mpr ⟨htd.2, hfc.2⟩, hxc.2⟩⟩⟩
      · exact Option.noConfusion h
  · exact Option.noConfusion h

/-! ### Depth profile of parsed JSON text -/

/-- Consumed text of a complete JSON value with structural braces: the
depth returns to zero and never dips below zero. -/
def ValSeg (cs : List Char) : Prop := runD 0 cs = 0 ∧ allGe 0 0 cs

/-- Interior segment scanned from depth 1: stays at depth ≥ 1 and ends
back at depth 1. -/
def Seg1 (cs : List Char) : Prop := runD 1 cs = 1 ∧ allGe 1 1 cs

/-- Consumed text of `parseMembers`: an interior segment followed by the
closing brace. -/
def MemSeg (cs : List Char) : Prop := ∃ mid, cs = mid ++ ['}'] ∧ Seg1 mid

/-- Consumed text of a JSON object: `{`, an interior segment, `}`. -/
def ObjShape (cs : List Char) : Prop := ∃ inner, cs = '{' :: inner ++ ['}'] ∧ Seg1 inner

theorem seg1_nil : Seg1 [] := ⟨rfl, trivial⟩

theorem seg1_append {a b : List Char} (ha : Seg1 a) (hb : Seg1 b) : Seg1 (a ++ b) := by
  refine ⟨?_, ?_⟩
  · rw [runD_append, ha.1, hb.1]
  · rw [allGe_append, ha.1]
    exact ⟨ha.2, hb.2⟩

theorem seg1_of_noBrace {cs : List Char} (h : NoBrace cs) : Seg1 cs :=
  ⟨runD_of_noBrace cs h 1, allGe_of_noBrace 1 cs h 1 le_rfl⟩

theorem seg1_of_valSeg {cs : List Char} (h : ValSeg cs) : Seg1 cs := by
  refine ⟨?_, ?_⟩
  · have := runD_shift cs 0 1
    rw [h.1] at this
    simpa using this
  · have := allGe_shift 0 cs 0 1 h.2
    simpa using this

theorem valSeg_nil : ValSeg [] := ⟨rfl, trivial⟩

theorem valSeg_of_noBrace {cs : List Char} (h : NoBrace cs) : ValSeg cs :=
  ⟨runD_of_noBrace cs h 0, allGe_of_noBrace 0 cs h 0 le_rfl⟩

theorem valSeg_append {a b : List Char} (ha : ValSeg a) (hb : ValSeg b) : ValSeg (a ++ b) := by
  refine ⟨?_, ?_⟩
  · rw [runD_append, ha.1, hb.1]
  · rw [allGe_append, ha.1]
    exact ⟨ha.2, hb.2⟩

theorem memSeg_close : MemSeg ['}'] := ⟨[], rfl, seg1_nil⟩

theorem memSeg_cons_seg1 {a m : List Char} (ha : Seg1 a) (hm : MemSeg m) :
    MemSeg (a ++ m) := by
  obtain ⟨mid, hmid, hseg⟩ := hm
  exact ⟨a ++ mid, by rw [hmid, List.append_assoc], seg1_append ha hseg⟩

theorem objShape_build {w m : List Char} (hw : NoBrace w) (hm : MemSeg m) :
    ObjShape ('{' :: (w ++ m)) := by
  obtain ⟨mid, hmid, hseg⟩ := hm
  refine ⟨w ++ mid, ?_, seg1_append (seg1_of_noBrace hw) hseg⟩
  rw [hmid]
  simp

theorem objShape_valSeg {cs : List Char} (h : ObjShape cs) : ValSeg cs := by
  obtain ⟨inner, hinner, hseg⟩ := h
  subst hinner
  constructor
  · show runD (0 + stepD '{') (inner ++ ['}']) = 0
    rw [runD_append, show (0 : Int) + stepD '{' = 1 by decide, hseg.1]
    decide
  · refine ⟨by decide, ?_⟩
    rw [show (0 : Int) + stepD '{' = 1 by decide, List.append_eq, allGe_append, hseg.1]
    refine ⟨allGe_mono 1 0 inner (by omega) 1 hseg.2, ⟨?_, trivial⟩⟩
    decide

theorem skipWs_not_ws {c : Char} (cs : List Char) (h : isWsChar c = false) :
    skipWs (c :: cs) = c :: cs := by
  simp [skipWs, h]

/-- Induction statement for `parseValue`: a successful parse consumes a
prefix which, when the value's strings are brace-free, is a balanced
segment — and an object shape when the value is an object. -/
def PvStmt (fuel : Nat) : Prop :=
  ∀ cs v rest, parseValue fuel cs = some (v, rest) →
    ∃ pre, cs = pre ++ rest ∧
      (jsonNoBraceStrings v = true →
        ValSeg pre ∧ ∀ fs, v = JsonValue.obj fs → ObjShape pre)

/-- Induction statement for `parseMembers`. -/
def PmStmt (fuel : Nat) : Prop :=
  ∀ cs fs rest, parseMembers fuel cs = some (fs, rest) →
    ∃ pre, cs = pre ++ rest ∧ (jsonFieldsNoBraceStrings fs = true → MemSeg pre)

/-- Induction statement for `parseElements`. -/
def PeStmt (fuel : Nat) : Prop :=
  ∀ cs es rest, parseElements fuel cs = some (es, rest) →
    ∃ pre, cs = pre ++ rest ∧ (jsonListNoBraceStrings es = true → ValSeg pre)

theorem parse_consumed : ∀ fuel, PvStmt fuel ∧ PmStmt fuel ∧ PeStmt fuel := by
  intro fuel
  induction fuel with
  | zero =>
    refine ⟨?_, ?_, ?_⟩
    · intro cs v rest h
      exact absurd h (by simp [parseValue])
    · intro cs fs rest h
      exact absurd h (by simp [parseMembers])
    · intro cs es rest h
      exact absurd h (by simp [parseElements])
  | succ fuel ih =>
    obtain ⟨ihv, ihm, ihe⟩ := ih
    refine ⟨?_, ?_, ?_⟩
    · -- PvStmt (fuel + 1)
      intro cs v rest h
      simp only [parseValue] at h
      split at h
      · exact Option.noConfusion h
      · rename_i c rest0
        split at h
        · -- c = '{'
          rename_i hc
          subst hc
          split at h
          · -- skipWs rest0 = '}' :: r : the empty object
            rename_i r heq
            simp only [Option.some.injEq, Prod.mk.injEq] at h
            obtain ⟨hv, hr⟩ := h
            subst hv
            subst hr
            obtain ⟨w, hw, hnbw⟩ := skipWs_consumed rest0
            rw [heq] at hw
            refine ⟨'{' :: (w ++ ['}']), ?_, ?_⟩
            · rw [hw]
              simp
            · intro _
              have hobj := objShape_build hnbw memSeg_close
              exact ⟨objShape_valSeg hobj, fun _ _ => hobj⟩
          · -- nonempty object: parseMembers
            split at h
            · rename_i fs r hmem
              simp only [Option.some.injEq, Prod.mk.injEq] at h
              obtain ⟨hv, hr⟩ := h
              subst hv
              subst hr
              obtain ⟨w, hw, hnbw⟩ := skipWs_consumed rest0
              obtain ⟨mpre, hmpre, hmem'⟩ := ihm (skipWs rest0) fs r hmem
              rw [hmpre] at hw
              refine ⟨'{' :: (w ++ mpre), ?_, ?_⟩
              · rw [hw]
                simp
              · intro hnbs
                have hms : MemSeg mpre := hmem' hnbs
                have hobj := objShape_build hnbw hms
                exact ⟨objShape_valSeg hobj, fun _ _ => hobj⟩
            · exact Option.noConfusion h
        · split at h
          · -- c = '['
            rename_i hc
            subst hc
            split at h
            · -- empty array
              rename_i r heq
              simp only [Option.some.injEq, Prod.mk.injEq] at h
              obtain ⟨hv, hr⟩ := h
              subst hv
              subst hr
              obtain ⟨w, hw, hnbw⟩ := skipWs_consumed rest0
              rw [heq] at hw
              refine ⟨'[' :: (w ++ [']']), ?_, ?_⟩
              · rw [hw]
                simp
              · intro _
                refine ⟨valSeg_of_noBrace ?_, fun fs hfs => JsonValue.noConfusion hfs⟩
                exact noBrace_cons.mpr ⟨by decide, noBrace_append.mpr
                  ⟨hnbw, noBrace_cons.mpr ⟨by decide, noBrace_nil⟩⟩⟩
            · split at h
              · rename_i es r helem
                simp only [Option.some.injEq, Prod.mk.injEq] at h
                obtain ⟨hv, hr⟩ := h
                subst hv
                subst hr
                obtain ⟨w, hw, hnbw⟩ := skipWs_consumed rest0
                obtain ⟨epre, hepre, helem'⟩ := ihe (skipWs rest0) es r helem
                rw [hepre] at hw
                refine ⟨'[' :: (w ++ epre), ?_, ?_⟩
                · rw [hw]
                  simp
                · intro hnbs
                  refine ⟨?_, fun fs hfs => JsonValue.noConfusion hfs⟩
                  exact valSeg_append (valSeg_of_noBrace
                    (noBrace_cons.mpr ⟨by decide, noBrace_nil⟩))
                    (valSeg_append (valSeg_of_noBrace hnbw) (helem' hnbs))
              · exact Option.noConfusion h
          · split at h
            · -- c = '"'
              rename_i hc
              subst hc
              split at h
              · rename_i s r hstr
                simp only [Option.some.injEq, Prod.mk.injEq] at h
                obtain ⟨hv, hr⟩ := h
                subst hv
                subst hr
                obtain ⟨spre, hspre, hsnb⟩ := parseStringBody_consumed (fuel + 1) rest0 s r hstr
                refine ⟨'"' :: spre, ?_, ?_⟩
                · rw [hspre]
                  simp
                · intro hnbs
                  have hks : NoBrace s := by
                    have := (strNoBraces_iff (String.mk s)).mp hnbs
                    exact this
                  refine ⟨valSeg_of_noBrace (noBrace_cons.mpr ⟨by decide, hsnb hks⟩),
                    fun fs hfs => JsonValue.noConfusion hfs⟩
              · exact Option.noConfusion h
            · split at h
              · -- c = 't'
                rename_i hc
                subst hc
                split at h
                · rename_i r
                  simp only [Option.some.injEq, Prod.mk.injEq] at h
                  obtain ⟨hv, hr⟩ := h
                  subst hv
                  subst hr
                  refine ⟨['t', 'r', 'u', 'e'], ?_, ?_⟩
                  · rfl
                  · intro _
                    exact ⟨valSeg_of_noBrace (by decide), fun fs hfs => JsonValue.noConfusion hfs⟩
                · exact Option.noConfusion h
              · split at h
                · -- c = 'f'
                  rename_i hc
                  subst hc
                  split at h
                  · rename_i r
                    simp only [Option.some.injEq, Prod.mk.injEq] at h
                    obtain ⟨hv, hr⟩ := h
                    subst hv
                    subst hr
                    refine ⟨['f', 'a', 'l', 's', 'e'], ?_, ?_⟩
                    · rfl
                    · intro _
                      exact ⟨valSeg_of_noBrace (by decide),
                        fun fs hfs => JsonValue.noConfusion hfs⟩
                  · exact Option.noConfusion h
                · split at h
                  · -- c = 'n'
                    rename_i hc
                    subst hc
                    split at h
                    · rename_i r
                      simp only [Option.some.injEq, Prod.mk.injEq] at h
                      obtain ⟨hv, hr⟩ := h
                      subst hv
                      subst hr
                      refine ⟨['n', 'u', 'l', 'l'], ?_, ?_⟩
                      · rfl
                      · intro _
                        exact ⟨valSeg_of_noBrace (by decide),
                          fun fs hfs => JsonValue.noConfusion hfs⟩
                    · exact Option.noConfusion h
                  · -- number
                    split at h
                    · rename_i lex r hnum
                      simp only [Option.some.injEq, Prod.mk.injEq] at h
                      obtain ⟨hv, hr⟩ := h
                      subst hv
                      subst hr
                      have hc := parseNumber_consumed hnum
                      refine ⟨lex, hc.1, ?_⟩
                      intro _
                      exact ⟨valSeg_of_noBrace hc.2, fun fs hfs => JsonValue.noConfusion hfs⟩
                    · exact Option.noConfusion h
    · -- PmStmt (fuel + 1)
      intro cs fs rest h
      simp only [parseMembers] at h
      split at h
      · rename_i rest0
        split at h
        · exact Option.noConfusion h
        · rename_i k r1 hstr
          split at h
          · rename_i r2 heq2
            split at h
            · exact Option.noConfusion h
            · rename_i v r3 hval
              obtain ⟨spre, hspre, hsnb⟩ := parseStringBody_consumed (fuel + 1) rest0 k r1 hstr
              obtain ⟨w1, hw1, hnb1⟩ := skipWs_consumed r1
              rw [heq2] at hw1
              obtain ⟨w2, hw2, hnb2⟩ := skipWs_consumed r2
              obtain ⟨vpre, hvpre, hv'⟩ := ihv (skipWs r2) v r3 hval
              rw [hvpre] at hw2
              split at h
              · -- ',' :: r4 : further members
                rename_i r4 heq3
                split at h
                · rename_i fs' r5 hrec
                  simp only [Option.some.injEq, Prod.mk.injEq] at h
                  obtain ⟨hfs, hr⟩ := h
                  subst hfs
                  subst hr
                  obtain ⟨w3, hw3, hnb3⟩ := skipWs_consumed r3
                  rw [heq3] at hw3
                  obtain ⟨w4, hw4, hnb4⟩ := skipWs_consumed r4
                  obtain ⟨mpre, hmpre, hm'⟩ := ihm (skipWs r4) fs' r5 hrec
                  rw [hmpre] at hw4
                  rw [hw4] at hw3
                  refine ⟨['"'] ++ spre ++ w1 ++ [':'] ++ w2 ++ vpre ++ w3 ++ [','] ++ w4 ++ mpre,
                    ?_, ?_⟩
                  · rw [hspre, hw1, hw2, hw3]
                    simp
                  · intro hfields
                    simp only [jsonFieldsNoBraceStrings, Bool.and_eq_true] at hfields
                    obtain ⟨⟨hk, hv⟩, hfs'⟩ := hfields
                    have hks : NoBrace k := (strNoBraces_iff (String.mk k)).mp hk
                    have hms : MemSeg mpre := hm' hfs'
                    exact memSeg_cons_seg1 (seg1_append (seg1_append (seg1_append (seg1_append
                      (seg1_append (seg1_append (seg1_append (seg1_append
                        (seg1_of_noBrace (noBrace_cons.mpr ⟨by decide, noBrace_nil⟩))
                        (seg1_of_noBrace (hsnb hks)))
                        (seg1_of_noBrace hnb1))
                        (seg1_of_noBrace (noBrace_cons.mpr ⟨by decide, noBrace_nil⟩)))
                        (seg1_of_noBrace hnb2))
                        (seg1_of_valSeg ((hv' hv).1)))
                        (seg1_of_noBrace hnb3))
                        (seg1_of_noBrace (noBrace_cons.mpr ⟨by decide, noBrace_nil⟩)))
                        (seg1_of_noBrace hnb4)) hms
                · exact Option.noConfusion h
              · -- '}' :: r4 : last member
                rename_i r4 heq3
                simp only [Option.some.injEq, Prod.mk.injEq] at h
                obtain ⟨hfs, hr⟩ := h
                subst hfs
                subst hr
                obtain ⟨w3, hw3, hnb3⟩ := skipWs_consumed r3
                rw [heq3] at hw3
                refine ⟨['"'] ++ spre ++ w1 ++ [':'] ++ w2 ++ vpre ++ w3 ++ ['}'], ?_, ?_⟩
                · rw [hspre, hw1, hw2, hw3]
                  simp
                · intro hfields
                  simp only [jsonFieldsNoBraceStrings, Bool.and_eq_true] at hfields
                  obtain ⟨⟨hk, hv⟩, _⟩ := hfields
                  have hks : NoBrace k := (strNoBraces_iff (String.mk k)).mp hk
                  refine ⟨['"'] ++ spre ++ w1 ++ [':'] ++ w2 ++ vpre ++ w3, rfl, ?_⟩
                  exact seg1_append (seg1_append (seg1_append (seg1_append (seg1_append
                    (seg1_append
                      (seg1_of_noBrace (noBrace_cons.mpr ⟨by decide, noBrace_nil⟩))
                      (seg1_of_noBrace (hsnb hks)))
                      (seg1_of_noBrace hnb1))
                      (seg1_of_noBrace (noBrace_cons.mpr ⟨by decide, noBrace_nil⟩)))
                      (seg1_of_noBrace hnb2))
                      (seg1_of_valSeg ((hv' hv).1)))
                      (seg1_of_noBrace hnb3)
              · exact Option.noConfusion h
          · exact Option.noConfusion h
      · exact Option.noConfusion h
    · -- PeStmt (fuel + 1)
      intro cs es rest h
      simp only [parseElements] at h
      split at h
      · exact Option.noConfusion h
      · rename_i v r1 hval
        obtain ⟨vpre, hvpre, hv'⟩ := ihv cs v r1 hval
        obtain ⟨w1, hw1, hnb1⟩ := skipWs_consumed r1
        split at h
        · -- ',' :: r2 : further elements
          rename_i r2 heq
          rw [heq] at hw1
          split at h
          · rename_i es' r3 hrec
            simp only [Option.some.injEq, Prod.mk.injEq] at h
            obtain ⟨hes, hr⟩ := h
            subst hes
            subst hr
            obtain ⟨w2, hw2, hnb2⟩ := skipWs_consumed r2
            obtain ⟨epre, hepre, he'⟩ := ihe (skipWs r2) es' r3 hrec
            rw [hepre] at hw2
            rw [hw2] at hw1
            refine ⟨vpre ++ w1 ++ [','] ++ w2 ++ epre, ?_, ?_⟩
            · rw [hvpre, hw1]
              simp
            · intro hes
              simp only [jsonListNoBraceStrings, Bool.and_eq_true] at hes
              obtain ⟨hv, hes'⟩ := hes
              exact valSeg_append (valSeg_append (valSeg_append (valSeg_append
                ((hv' hv).1)
                (valSeg_of_noBrace hnb1))
                (valSeg_of_noBrace (noBrace_cons.mpr ⟨by decide, noBrace_nil⟩)))
                (valSeg_of_noBrace hnb2))
                (he' hes')
          · exact Option.noConfusion h
        · -- ']' :: r2 : last element
          rename_i r2 heq
          rw [heq] at hw1
          simp only [Option.some.injEq, Prod.mk.injEq] at h
          obtain ⟨hes, hr⟩ := h
          subst hes
          subst hr
          refine ⟨vpre ++ w1 ++ [']'], ?_, ?_⟩
          · rw [hvpre, hw1]
            simp
          · intro hes
            simp only [jsonListNoBraceStrings, Bool.and_eq_true] at hes
            obtain ⟨hv, _⟩ := hes
            exact valSeg_append (valSeg_append ((hv' hv).1) (valSeg_of_noBrace hnb1))
              (valSeg_of_noBrace (noBrace_cons.mpr ⟨by decide, noBrace_nil⟩))
        · exact Option.noConfusion h

/-! ### The scan finds a structural-brace object -/

theorem extractLoop_open (text X : List Char) (i : Nat) (d : Int) (s : Option Nat) :
    extractLoop text ('{' :: X) i d s =
      extractLoop text X (i + 1) (d + 1) (if d = 0 then some i else s) := by
  simp only [extractLoop, if_true]

/-- Scanning an interior segment (depth stays ≥ 1) neither fires a parse
attempt nor changes the recorded start. -/
theorem extractLoop_interior (text : List Char) :
    ∀ seg d, 1 ≤ d → allGe 1 d seg → ∀ rest i s,
      extractLoop text (seg ++ rest) i d (some s) =
        extractLoop text rest (i + seg.length) (runD d seg) (some s) := by
  intro seg
  induction seg with
  | nil =>
    intro d _ _ rest i s
    simp [runD]
  | cons c cs ih =>
    intro d hd hall rest i s
    obtain ⟨h1, h2⟩ := hall
    by_cases hc1 : c = '{'
    · subst hc1
      rw [List.cons_append, extractLoop_open]
      rw [if_neg (by omega : ¬ d = 0)]
      have hstep : stepD '{' = 1 := by decide
      rw [hstep] at h1 h2
      rw [ih (d + 1) (by omega) h2 rest (i + 1) s]
      have hrun : runD d ('{' :: cs) = runD (d + 1) cs := by
        show runD (d + stepD '{') cs = runD (d + 1) cs
        rw [hstep]
      rw [hrun]
      congr 1
      simp only [List.length_cons]
      omega
    · by_cases hc2 : c = '}'
      · subst hc2
        rw [List.cons_append]
        simp only [extractLoop]
        have hstep : stepD '}' = -1 := by decide
        rw [hstep] at h1 h2
        rw [if_neg (by omega : ¬ d - 1 = 0)]
        rw [if_neg (by decide : ¬ ('}' : Char) = '{')]
        rw [if_pos trivial]
        rw [ih (d - 1) (by omega) (by
          have heq : d + -1 = d - 1 := by ring
          rw [heq] at h2
          exact h2) rest (i + 1) s]
        have hrun : runD d ('}' :: cs) = runD (d - 1) cs := by
          show runD (d + stepD '}') cs = runD (d - 1) cs
          rw [hstep]
          rfl
        rw [hrun]
        have hidx : i + ('}' :: cs).length = i + 1 + cs.length := by
          simp only [List.length_cons]
          omega
        rw [hidx]
      · rw [List.cons_append]
        simp only [extractLoop]
        rw [if_neg hc1, if_neg hc2]
        have hstep : stepD c = 0 := by simp [stepD, hc1, hc2]
        rw [hstep, add_zero] at h1 h2
        rw [ih d hd h2 rest (i + 1) s]
        have hrun : runD d (c :: cs) = runD d cs := by
          show runD (d + stepD c) cs = runD d cs
          rw [hstep, add_zero]
        rw [hrun]
        congr 1
        simp only [List.length_cons]
        omega

/-- At the closing brace of the recorded candidate the loop attempts the
parse of the recorded slice. -/
theorem extractLoop_close_hit (text X : List Char) (i : Nat) (d : Int) (s : Nat)
    (hd : d - 1 = 0) :
    extractLoop text ('}' :: X) i d (some s) =
      match parseJSONList ((text.drop s).take (i + 1 - s)) with
      | some v => some v
      | none => extractLoop text X (i + 1) (d - 1) none := by
  simp only [extractLoop]
  rw [if_pos hd]
  rw [if_neg (by decide : ¬ ('}' : Char) = '{')]
  rw [if_pos trivial]

/-- If a structural-brace object text sits at position `i0` of the scan
with current depth 0 and parses, the loop returns its parse. -/
theorem extractLoop_finds_obj (text J rest : List Char) (i0 : Nat) (s0 : Option Nat)
    (v : JsonValue) (hshape : ObjShape J)
    (hslice : (text.drop i0).take J.length = J)
    (hparse : parseJSONList J = some v) :
    extractLoop text (J ++ rest) i0 0 s0 = some v := by
  obtain ⟨inner, hJ, hseg⟩ := hshape
  subst hJ
  simp only [List.cons_append] at hslice hparse ⊢
  simp only [List.length_cons, List.length_append, List.length_nil, Nat.zero_add] at hslice
  rw [extractLoop_open, if_pos rfl]
  rw [show ((0 : Int) + 1) = 1 by norm_num]
  rw [List.append_assoc, List.singleton_append]
  rw [extractLoop_interior text inner 1 le_rfl hseg.2 ('}' :: rest) (i0 + 1) i0]
  rw [hseg.1]
  rw [extractLoop_close_hit text rest (i0 + 1 + inner.length) 1 i0 (by norm_num)]
  have harg : i0 + 1 + inner.length + 1 - i0 = inner.length + 1 + 1 := by omega
  rw [harg, hslice, hparse]

/-- From an exact-object parse with brace-free strings, the consumed text
has the object shape. -/
theorem parseValue_objShape {J : List Char} {fs : List (String × JsonValue)} {fuel : Nat}
    (hJ : parseValue fuel J = some (JsonValue.obj fs, []))
    (hnb : jsonNoBraceStrings (JsonValue.obj fs) = true) :
    ObjShape J := by
  obtain ⟨pre, hpre, himpl⟩ := (parse_consumed fuel).1 J (JsonValue.obj fs) [] hJ
  rw [List.append_nil] at hpre
  subst hpre
  exact (himpl hnb).2 fs rfl

/-- An exact-object parse also succeeds through `parseJSONList`. -/
theorem parseJSONList_of_exact {J : List Char} {fs : List (String × JsonValue)}
    (hshape : ObjShape J)
    (hJ : parseValue (J.length + 1) J = some (JsonValue.obj fs, [])) :
    parseJSONList J = some (JsonValue.obj fs) := by
  obtain ⟨inner, hJeq, _⟩ := hshape
  unfold parseJSONList
  have hsk : skipWs J = J := by
    rw [hJeq]
    exact skipWs_not_ws _ (by decide)
  rw [hsk, hJ]
  simp [skipWs]

/-! ### Claim C2 -/

/-- C2 counterexample: the string `{"a":"}"}` is exactly one syntactically
valid JSON object with empty (hence brace-free) text before and after it,
yet `extractJSON` fails with `noJsonFound`: the `}` inside the string
literal confuses the depth tracking, the first "balanced" slice `{"a":"}`
does not parse, and the scan then goes negative. -/
theorem extractJSON_misses_object_with_brace_in_string :
    parseJSON "\x7b\"a\":\"\x7d\"\x7d" = some (.obj [("a", .str "\x7d")]) ∧
    extractJSON ("" ++ "\x7b\"a\":\"\x7d\"\x7d" ++ "") = .error .noJsonFound :=
  ⟨by decide, by decide⟩

/-- C2 amended: for any string `pre ++ J ++ post` where `pre` and `post`
contain no brace characters and `J` is exactly the text of a syntactically
valid JSON object none of whose string literals contains a brace
character, `extractJSON` returns exactly that object, parsed. -/
theorem extractJSON_unique_object (pre J post : String) (fs : List (String × JsonValue))
    (hpre : ∀ c ∈ pre.data, c ≠ '{' ∧ c ≠ '}')
    (hpost : ∀ c ∈ post.data, c ≠ '{' ∧ c ≠ '}')
    (hJ : parseValue (J.length + 1) J.data = some (JsonValue.obj fs, []))
    (hnb : jsonNoBraceStrings (JsonValue.obj fs) = true) :
    extractJSON (pre ++ J ++ post) = .ok (JsonValue.obj fs) := by
  have hshape : ObjShape J.data := parseValue_objShape hJ hnb
  have hparse : parseJSONList J.data = some (JsonValue.obj fs) :=
    parseJSONList_of_exact hshape hJ
  have hdata : (pre ++ J ++ post).data = pre.data ++ (J.data ++ post.data) := by
    simp [String.data_append, List.append_assoc]
  obtain ⟨inner, hJeq, hseg⟩ := hshape
  have hne : ¬ (pre ++ J ++ post).data = [] := by
    rw [hdata, hJeq]
    simp
  unfold extractJSON
  rw [if_neg hne]
  have hloop : extractLoop (pre.data ++ (J.data ++ post.data))
      (pre.data ++ (J.data ++ post.data)) 0 0 none = some (JsonValue.obj fs) := by
    rw [extractLoop_noBrace_seg (pre.data ++ (J.data ++ post.data)) pre.data hpre
      (J.data ++ post.data) 0 0 none]
    have hslice : ((pre.data ++ (J.data ++ post.data)).drop (0 + pre.data.length)).take
        J.data.length = J.data := by
      rw [show (0 + pre.data.length) = pre.data.length by omega]
      rw [List.drop_left, List.take_left]
    exact extractLoop_finds_obj (pre.data ++ (J.data ++ post.data)) J.data post.data
      (0 + pre.data.length) none (JsonValue.obj fs) ⟨inner, hJeq, hseg⟩ hslice hparse
  rw [hdata, hloop]

/-- Witness for C2 (amended): a concrete object with nested prose. -/
theorem extractJSON_unique_object_witness :
    extractJSON ("Sure: " ++ "\x7b\"a\":1\x7d" ++ " done.") =
      .ok (JsonValue.obj [("a", JsonValue.num "1")]) :=
  extractJSON_unique_object "Sure: " "\x7b\"a\":1\x7d" " done."
    [("a", JsonValue.num "1")] (by decide) (by decide) (by decide) (by decide)

/-! ### Server data model (`src/unnamed/part_000`)

The store is the `level` database keyed by ISO timestamp strings.  Its
documented semantics: `get` rejects with a not-found error for a missing
key; `del` is a blind write that succeeds silently for missing keys;
`put` overwrites.  JS entry objects are open records; optional fields are
modelled with `Option`, and `tag` collapses the `undefined`/`null`
distinction, which no code path observes. -/

/-- Factor levels keyed by factor id (a plain JS object in the source). -/
abbrev Factors := List (String × String)

/-- A diary entry. -/
structure Entry where
  type : String
  text : String
  timestamp : String
  note : Option String := none
  factors : Option Factors := none
  severity : Option String := none
  tag : Option String := none
  fodmaps : Option Factors := none
  other : Option Factors := none
  deriving DecidableEq

/-- The key-value store, as an association list. -/
abbrev Store := List (String × Entry)

/-- `db.get`: `none` models the rejected promise (not found). -/
def dbGet (st : Store) (k : String) : Option Entry :=
  (st.find? (fun p => p.1 == k)).map Prod.snd

/-- `db.del`: removes the key; a no-op when the key is absent. -/
def dbDel (st : Store) (k : String) : Store :=
  st.filter (fun p => !(p.1 == k))

/-- `db.put`: overwrite or insert. -/
def dbPut (st : Store) (k : String) (e : Entry) : Store :=
  dbDel st k ++ [(k, e)]

theorem dbGet_put_same (st : Store) (k : String) (e : Entry) :
    dbGet (dbPut st k e) k = some e := by
  unfold dbGet dbPut
  rw [List.find?_append]
  have h1 : (dbDel st k).find? (fun p => p.1 == k) = none := by
    rw [List.find?_eq_none]
    intro x hx
    have hm := List.mem_filter.mp hx
    simpa using hm.2
  rw [h1]
  simp [List.find?]

theorem dbGet_put_other (st : Store) (k k2 : String) (e : Entry) (hne : k2 ≠ k) :
    dbGet (dbPut st k e) k2 = dbGet st k2 := by
  unfold dbGet dbPut dbDel
  rw [List.find?_append]
  have hkk2 : (k == k2) = false := beq_eq_false_iff_ne.mpr (Ne.symm hne)
  have h2 : List.find? (fun p => p.1 == k2) [(k, e)] = none := by
    simp [List.find?, hkk2]
  rw [h2]
  have h3 : ∀ l : Store, (l.filter (fun p => !(p.1 == k))).find? (fun p => p.1 == k2) =
      l.find? (fun p => p.1 == k2) := by
    intro l
    induction l with
    | nil => rfl
    | cons p l ih =>
      by_cases hpk : p.1 = k
      · have b1 : (p.1 == k) = true := beq_iff_eq.mpr hpk
        have b2 : (p.1 == k2) = false := by
          rw [hpk]
          exact hkk2
        simp [List.filter, List.find?, b1, b2, ih]
      · have b1 : (p.1 == k) = false := beq_eq_false_iff_ne.mpr hpk
        by_cases hp2 : p.1 = k2
        · have b2 : (p.1 == k2) = true := beq_iff_eq.mpr hp2
          simp [List.filter, List.find?, b1, b2]
        · have b2 : (p.1 == k2) = false := beq_eq_false_iff_ne.mpr hp2
          simp [List.filter, List.find?, b1, b2, ih]
  rw [h3]
  cases st.find? (fun p => p.1 == k2) <;> rfl

theorem dbDel_absent (st : Store) (k : String) (habs : dbGet st k = none) :
    dbDel st k = st := by
  unfold dbGet at habs
  have hfind : st.find? (fun p => p.1 == k) = none := by
    cases h : st.find? (fun p => p.1 == k)
    · rfl
    · rw [h] at habs
      exact Option.noConfusion habs
  rw [List.find?_eq_none] at hfind
  unfold dbDel
  rw [List.filter_eq_self]
  intro a ha
  simpa using hfind a ha

/-- Outcome of a CRUD handler: redirect on success, or the 500 HTML error
page rendered by the catch branch. -/
inductive CrudResp where
  | redirect : CrudResp
  | errorPage (status : Nat) (msg : String) : CrudResp
  deriving DecidableEq

/-- `POST /api/duplicate` (`src/unnamed/part_000` lines 91–104): read the
entry, write a copy under the current clock string `now` with its
`timestamp` replaced by `now`.  `now` models `new Date().toISOString()`;
a missing key rejects inside `db.get`, caught as a 500 error page. -/
def duplicateHandler (st : Store) (k : String) (now : String) : Store × CrudResp :=
  match dbGet st k with
  | none => (st, .errorPage 500 "NotFound")
  | some orig => (dbPut st now { orig with timestamp := now }, .redirect)

/-- `POST /api/delete` (lines 136–146): the store's `del` succeeds
silently for missing keys, so the handler always redirects. -/
def deleteHandler (st : Store) (k : String) : Store × CrudResp :=
  (dbDel st k, .redirect)

/-- Body of an update request; `none` models an absent (or `null`,
hence falsy / not-`undefined` never applies) field. -/
structure UpdateReq where
  factors : Option Factors := none
  severity : Option String := none
  tag : Option String := none

/-- The patch applied by `POST /api/update` (lines 107–133): `factors`
(truthy object) replaces the map and clears the legacy `fodmaps`/`other`;
`severity` is patched when truthy (nonempty string); a present `tag`
toggles — equal to the current tag clears it, otherwise it is set. -/
def applyUpdate (e : Entry) (r : UpdateReq) : Entry :=
  let e1 := match r.factors with
    | some f => { e with factors := some f, fodmaps := none, other := none }
    | none => e
  let e2 := match r.severity with
    | some s => if s = "" then e1 else { e1 with severity := some s }
    | none => e1
  match r.tag with
  | some t => { e2 with tag := if e2.tag = some t then none else some t }
  | none => e2

/-- Response of the update endpoint: `res.json({success, entry})` or a
500 `{error}` JSON. -/
inductive UpdateResp where
  | success (entry : Entry) : UpdateResp
  | errorJson (status : Nat) (msg : String) : UpdateResp
  deriving DecidableEq

/-- `POST /api/update`: read, patch, write back under the same key. -/
def updateHandler (st : Store) (k : String) (r : UpdateReq) : Store × UpdateResp :=
  match dbGet st k with
  | none => (st, .errorJson 500 "NotFound")
  | some e => (dbPut st k (applyUpdate e r), .success (applyUpdate e r))

/-- Body of a JSON response from the analyze endpoint. -/
inductive AnalyzeBody where
  | payload (v : JsonValue) : AnalyzeBody
  | errorField (msg : String) : AnalyzeBody
  deriving DecidableEq

/-- `POST /api/analyze` (lines 74–88): empty or missing `entries`
short-circuits to `res.json({error})` with the DEFAULT 200 status (there
is no `.status(500)` on that path); only a thrown error from the remote
`analyze` call produces `res.status(500).json({error})`.  The remote
call's outcome is the parameter `remote`. -/
def analyzeHandler (entries : Option (List Entry)) (remote : Except String JsonValue) :
    Nat × AnalyzeBody :=
  match entries with
  | none => (200, .errorField "No entries found in selected date range")
  | some [] => (200, .errorField "No entries found in selected date range")
  | some (_ :: _) =>
    match remote with
    | .ok v => (200, .payload v)
    | .error m => (500, .errorField m)

/-- Body of an add request. -/
structure AddReq where
  text : Option String := none
  isNote : Bool := false
  overrideTime : Bool := false
  customTime : Option String := none

/-- JS `String.prototype.trim` on the whitespace the diary ever sees,
modelled directly over the character list (the built-in `String.trim`
is not kernel-reducible). -/
def jsTrim (s : String) : String :=
  String.mk (((s.data.dropWhile isWsChar).reverse.dropWhile isWsChar).reverse)

/-- `POST /api/add` (lines 36–71).  `now` models
`new Date().toISOString()`; the `new Date(customTime).toISOString()`
round-trip is modelled as the (already normalized) request string; the
classification call's outcome is the parameter `cres`, whose `text` and
`timestamp` fields are overridden by the spread in the source. -/
def addHandler (st : Store) (r : AddReq) (now : String) (cres : Except String Entry) :
    Store × CrudResp :=
  match r.text with
  | none => (st, .redirect)
  | some t =>
    if jsTrim t = "" then (st, .redirect)
    else
      let ts := match r.overrideTime, r.customTime with
        | true, some c => if c = "" then now else c
        | _, _ => now
      if r.isNote then
        (dbPut st ts { type := "note", text := jsTrim t, timestamp := ts }, .redirect)
      else
        match cres with
        | .ok cls => (dbPut st ts { cls with text := jsTrim t, timestamp := ts }, .redirect)
        | .error m => (st, .errorPage 500 m)

/-! ### Claims C4–C7, C9, C10 -/

/-- Lexicographic order on code points — the order JS string comparison
imposes on these ASCII timestamp strings (`String.lt`, stated on the
character lists so it is kernel-decidable). -/
def strLt (a b : String) : Prop := a.data < b.data

instance (a b : String) : Decidable (strLt a b) :=
  inferInstanceAs (Decidable (a.data < b.data))

/-- A future-dated entry, creatable through the add handler's
`overrideTime`/`customTime` path. -/
def futureEntry : Entry :=
  { type := "food", text := "banana", timestamp := "2030-01-01T00:00:00.000Z" }

/-- C4 counterexample: duplicating a future-dated entry at an earlier
clock reading yields a new timestamp that is NOT strictly greater than
the original's — the code never compares the two. -/
theorem duplicate_timestamp_not_greater :
    dbGet (dbPut [] "2030-01-01T00:00:00.000Z" futureEntry) "2030-01-01T00:00:00.000Z" =
      some futureEntry ∧
    duplicateHandler (dbPut [] "2030-01-01T00:00:00.000Z" futureEntry)
        "2030-01-01T00:00:00.000Z" "2024-06-01T12:00:00.000Z" =
      (dbPut (dbPut [] "2030-01-01T00:00:00.000Z" futureEntry) "2024-06-01T12:00:00.000Z"
        { futureEntry with timestamp := "2024-06-01T12:00:00.000Z" }, .redirect) ∧
    ¬ strLt futureEntry.timestamp
        ({ futureEntry with timestamp := "2024-06-01T12:00:00.000Z" }).timestamp :=
  ⟨rfl, rfl, by decide⟩

/-- C4 amended: duplicating preserves every field except `timestamp`,
which is set to the duplication-time clock string; the new timestamp is
strictly greater than the original's exactly when the clock reading
exceeds it (the normal case; the code does not enforce it). -/
theorem duplicate_preserves_fields (st : Store) (k now : String) (orig : Entry)
    (hget : dbGet st k = some orig) :
    duplicateHandler st k now =
      (dbPut st now { orig with timestamp := now }, .redirect) ∧
    ({ orig with timestamp := now }).type = orig.type ∧
    ({ orig with timestamp := now }).text = orig.text ∧
    ({ orig with timestamp := now }).note = orig.note ∧
    ({ orig with timestamp := now }).factors = orig.factors ∧
    ({ orig with timestamp := now }).severity = orig.severity ∧
    ({ orig with timestamp := now }).tag = orig.tag ∧
    ({ orig with timestamp := now }).fodmaps = orig.fodmaps ∧
    ({ orig with timestamp := now }).other = orig.other ∧
    ({ orig with timestamp := now }).timestamp = now ∧
    dbGet (dbPut st now { orig with timestamp := now }) now =
      some { orig with timestamp := now } ∧
    (strLt orig.timestamp now →
      strLt orig.timestamp ({ orig with timestamp := now }).timestamp) := by
  unfold duplicateHandler
  rw [hget]
  exact ⟨rfl, rfl, rfl, rfl, rfl, rfl, rfl, rfl, rfl, rfl,
    dbGet_put_same st now { orig with timestamp := now }, fun h => h⟩

/-- Witness for C4 (amended) at a concrete store and clock. -/
theorem duplicate_preserves_fields_witness :
    duplicateHandler (dbPut [] "2024-01-01T08:00:00.000Z"
        { futureEntry with timestamp := "2024-01-01T08:00:00.000Z" })
        "2024-01-01T08:00:00.000Z" "2024-06-01T12:00:00.000Z" =
      (dbPut (dbPut [] "2024-01-01T08:00:00.000Z"
          { futureEntry with timestamp := "2024-01-01T08:00:00.000Z" })
        "2024-06-01T12:00:00.000Z"
        { { futureEntry with timestamp := "2024-01-01T08:00:00.000Z" } with
            timestamp := "2024-06-01T12:00:00.000Z" }, .redirect) :=
  (duplicate_preserves_fields _ _ _ _ (by decide)).1

/-- C5: updating `tag` to the entry's current tag value clears it;
starting from an untagged entry, applying the same tag twice first sets
it and the second application returns the entry to untagged. -/
theorem update_tag_toggle (st : Store) (k t : String) (orig : Entry)
    (hget : dbGet st k = some orig) :
    (orig.tag = some t →
      updateHandler st k { tag := some t } =
        (dbPut st k { orig with tag := none }, .success { orig with tag := none })) ∧
    (orig.tag = none →
      updateHandler st k { tag := some t } =
        (dbPut st k { orig with tag := some t }, .success { orig with tag := some t }) ∧
      updateHandler (dbPut st k { orig with tag := some t }) k { tag := some t } =
        (dbPut (dbPut st k { orig with tag := some t }) k { orig with tag := none },
          .success { orig with tag := none })) := by
  constructor
  · intro htag
    unfold updateHandler
    rw [hget]
    simp [applyUpdate, htag]
  · intro htag
    constructor
    · unfold updateHandler
      rw [hget]
      simp [applyUpdate, htag]
    · unfold updateHandler
      rw [dbGet_put_same]
      simp [applyUpdate]

/-- Witness for C5 at a concrete store, entry and tag. -/
theorem update_tag_toggle_witness :
    updateHandler (dbPut [] "k1" futureEntry) "k1" { tag := some "safe" } =
      (dbPut (dbPut [] "k1" futureEntry) "k1" { futureEntry with tag := some "safe" },
        .success { futureEntry with tag := some "safe" }) :=
  ((update_tag_toggle (dbPut [] "k1" futureEntry) "k1" "safe" futureEntry (by decide)).2
    (by decide)).1

/-- C6 counterexample: deleting the missing key `"missing"` from the
empty store responds with the success redirect — not a `NotFound`
failure — and the store is unchanged. -/
theorem delete_missing_key_succeeds :
    dbGet ([] : Store) "missing" = none ∧
    deleteHandler ([] : Store) "missing" = (([] : Store), CrudResp.redirect) :=
  ⟨rfl, rfl⟩

/-- C6 amended: deleting a nonexistent key leaves the store unchanged and
responds with the success redirect; no `NotFound` occurs because the
store's delete is a silent no-op for missing keys. -/
theorem delete_nonexistent_unchanged (st : Store) (k : String)
    (habs : dbGet st k = none) :
    deleteHandler st k = (st, CrudResp.redirect) := by
  unfold deleteHandler
  rw [dbDel_absent st k habs]

/-- Witness for C6 (amended) on a nonempty store. -/
theorem delete_nonexistent_unchanged_witness :
    deleteHandler (dbPut [] "k1" futureEntry) "other" =
      (dbPut [] "k1" futureEntry, CrudResp.redirect) :=
  delete_nonexistent_unchanged (dbPut [] "k1" futureEntry) "other" (by decide)

/-- C7 counterexample: with zero entries the analyze endpoint responds
`{error: message}` with status 200 (the early `res.json` has no
`.status(500)`), so the claimed 500 status is wrong. -/
theorem analyze_empty_not_500 :
    analyzeHandler (some []) (.ok JsonValue.null) =
      (200, .errorField "No entries found in selected date range") ∧
    (analyzeHandler (some []) (.ok JsonValue.null)).1 ≠ 500 :=
  ⟨rfl, by decide⟩

/-- C7 amended: zero (or missing) entries short-circuit to an
`{error: message}` JSON body with the default 200 status and no remote
call; a remote-call failure on nonempty entries is surfaced as
`{error: message}` with status 500. -/
theorem analyze_error_paths (remote : Except String JsonValue) (e : Entry)
    (es : List Entry) (m : String) :
    analyzeHandler none remote =
      (200, .errorField "No entries found in selected date range") ∧
    analyzeHandler (some []) remote =
      (200, .errorField "No entries found in selected date range") ∧
    analyzeHandler (some (e :: es)) (.error m) = (500, .errorField m) :=
  ⟨rfl, rfl, rfl⟩

/-- C9: the update handler patches at most `factors`, `severity` and
`tag` (clearing the legacy `fodmaps`/`other` exactly when `factors` is
supplied); `type`, `text`, `timestamp` and `note` never change, the entry
stays under the same key, and all other keys are untouched. -/
theorem update_frame (st : Store) (k : String) (r : UpdateReq) (orig : Entry)
    (hget : dbGet st k = some orig) :
    updateHandler st k r =
      (dbPut st k (applyUpdate orig r), .success (applyUpdate orig r)) ∧
    (applyUpdate orig r).type = orig.type ∧
    (applyUpdate orig r).text = orig.text ∧
    (applyUpdate orig r).timestamp = orig.timestamp ∧
    (applyUpdate orig r).note = orig.note ∧
    (r.factors = none → (applyUpdate orig r).factors = orig.factors ∧
      (applyUpdate orig r).fodmaps = orig.fodmaps ∧
      (applyUpdate orig r).other = orig.other) ∧
    (∀ f, r.factors = some f → (applyUpdate orig r).factors = some f ∧
      (applyUpdate orig r).fodmaps = none ∧ (applyUpdate orig r).other = none) ∧
    (r.severity = none → (applyUpdate orig r).severity = orig.severity) ∧
    (r.tag = none → (applyUpdate orig r).tag = orig.tag) ∧
    dbGet (dbPut st k (applyUpdate orig r)) k = some (applyUpdate orig r) ∧
    (∀ k2, k2 ≠ k → dbGet (dbPut st k (applyUpdate orig r)) k2 = dbGet st k2) := by
  obtain ⟨rf, rs, rt⟩ := r
  refine ⟨by unfold updateHandler; rw [hget], ?_, ?_, ?_, ?_, ?_, ?_, ?_, ?_,
    dbGet_put_same _ _ _, fun k2 hk2 => dbGet_put_other _ _ _ _ hk2⟩ <;>
    cases rf <;> cases rs <;> cases rt <;>
    simp [applyUpdate] <;> split <;> simp

/-- Witness for C9 at a concrete store and request. -/
theorem update_frame_witness :
    updateHandler (dbPut [] "k1" futureEntry) "k1"
        { factors := some [("fructans", "high")] } =
      (dbPut (dbPut [] "k1" futureEntry) "k1"
        (applyUpdate futureEntry { factors := some [("fructans", "high")] }),
        .success (applyUpdate futureEntry { factors := some [("fructans", "high")] })) :=
  (update_frame (dbPut [] "k1" futureEntry) "k1"
    { factors := some [("fructans", "high")] } futureEntry (by decide)).1

/-- C10: a missing, empty, or whitespace-only `text` makes the add
handler redirect immediately: the store is unchanged, no error is
reported, and the classification outcome `cres` is irrelevant because
classification is never invoked. -/
theorem add_blank_text_noop (st : Store) (r : AddReq) (now : String)
    (cres : Except String Entry)
    (h : r.text = none ∨ ∃ t, r.text = some t ∧ jsTrim t = "") :
    addHandler st r now cres = (st, CrudResp.redirect) := by
  unfold addHandler
  rcases h with h | ⟨t, ht, htr⟩
  · rw [h]
  · rw [ht]
    simp [htr]

/-- Witness for C10: whitespace-only text, with a classification outcome
that would otherwise error. -/
theorem add_blank_text_noop_witness :
    addHandler (dbPut [] "k1" futureEntry) { text := some "   " }
        "2024-06-01T12:00:00.000Z" (.error "boom") =
      (dbPut [] "k1" futureEntry, CrudResp.redirect) :=
  add_blank_text_noop (dbPut [] "k1" futureEntry) { text := some "   " }
    "2024-06-01T12:00:00.000Z" (.error "boom") (Or.inr ⟨"   ", rfl, by decide⟩)

/-! ### `formatEntriesForAnalysis` (`src/llm.js` lines 128–166)

The source groups entries by `toLocaleDateString('en-US', {month:'short',
day:'numeric'})` of `new Date(timestamp)` (JS object insertion order),
sorts each day's entries ascending by date value, and renders one line
per entry.  We model the server under a UTC timezone with the `en-US`
renderings ("Jan 1", 12-hour "8:00 AM"); the numeric date value is an
order-isomorphic ordinal, which is all the comparator `a.date - b.date`
observes. -/

/-- Components of a timestamp. -/
structure DateParts where
  year : Nat
  month : Nat
  day : Nat
  hour : Nat
  minute : Nat
  second : Nat
  deriving DecidableEq

/-- Numeric value of a digit character. -/
def digitVal (c : Char) : Nat := c.toNat - 48

/-- Parse an ISO-8601 `YYYY-MM-DDTHH:MM:SS…` timestamp.  Models
`new Date(entry.timestamp)` under UTC; a malformed string falls back to
a zero date (the source would yield an Invalid Date; no stored entry
has one). -/
def parseISO (s : String) : DateParts :=
  match s.data with
  | y1 :: y2 :: y3 :: y4 :: '-' :: m1 :: m2 :: '-' :: d1 :: d2 :: 'T'
      :: h1 :: h2 :: ':' :: mi1 :: mi2 :: ':' :: s1 :: s2 :: _ =>
    { year := ((digitVal y1 * 10 + digitVal y2) * 10 + digitVal y3) * 10 + digitVal y4,
      month := digitVal m1 * 10 + digitVal m2,
      day := digitVal d1 * 10 + digitVal d2,
      hour := digitVal h1 * 10 + digitVal h2,
      minute := digitVal mi1 * 10 + digitVal mi2,
      second := digitVal s1 * 10 + digitVal s2 }
  | _ => ⟨0, 1, 1, 0, 0, 0⟩

/-- `en-US` short month names. -/
def monthShort (m : Nat) : String :=
  if m = 1 then "Jan" else if m = 2 then "Feb" else if m = 3 then "Mar"
  else if m = 4 then "Apr" else if m = 5 then "May" else if m = 6 then "Jun"
  else if m = 7 then "Jul" else if m = 8 then "Aug" else if m = 9 then "Sep"
  else if m = 10 then "Oct" else if m = 11 then "Nov" else if m = 12 then "Dec"
  else ""

/-- Digit character of `n < 10`. -/
def natDigit (n : Nat) : Char := Char.ofNat (48 + n)

/-- Decimal rendering of `n < 100` (enough for days, hours, minutes). -/
def natToStr (n : Nat) : String :=
  if n < 10 then String.mk [natDigit n]
  else String.mk [natDigit (n / 10), natDigit (n % 10)]

/-- Two-digit rendering (`minute: '2-digit'`). -/
def twoDigit (n : Nat) : String :=
  if n < 10 then String.mk ['0', natDigit n] else natToStr n

/-- The `toLocaleDateString('en-US', {month: 'short', day: 'numeric'})`
key, e.g. `"Jan 1"`. -/
def dateKey (dp : DateParts) : String :=
  monthShort dp.month ++ " " ++ natToStr dp.day

/-- The `toLocaleTimeString('en-US', {hour: 'numeric', minute:
'2-digit'})` rendering, e.g. `"8:00 AM"` (plain space before AM/PM). -/
def timeStr (dp : DateParts) : String :=
  let h12 := if dp.hour % 12 = 0 then 12 else dp.hour % 12
  natToStr h12 ++ ":" ++ twoDigit dp.minute ++ " " ++ (if dp.hour < 12 then "AM" else "PM")

/-- Order-isomorphic ordinal of a date (stands in for the epoch
milliseconds only ever used in comparisons). -/
def dateOrdinal (dp : DateParts) : Nat :=
  (((dp.year * 372 + (dp.month - 1) * 31 + (dp.day - 1)) * 24 + dp.hour) * 60
    + dp.minute) * 60 + dp.second

/-- Value of a factor map key. -/
def lookupFactor (l : Factors) (k : String) : Option String :=
  (l.find? (fun p => p.1 == k)).map Prod.snd

/-- JS object spread `{...a, ...b}`: keys of `a` in order with values
overridden by `b`, then the new keys of `b` in order. -/
def mergeSpread (a b : Factors) : Factors :=
  a.map (fun p =>
    match lookupFactor b p.1 with
    | some v => (p.1, v)
    | none => p) ++
  b.filter (fun p => (lookupFactor a p.1).isNone)

/-- The bracketed factor tags of a food line: every factor whose level is
truthy and neither `none` nor `unknown`, as `[level name]`, joined by
single spaces (`Object.entries` order = insertion order). -/
def factorTags (fs : Factors) : String :=
  String.intercalate " "
    ((fs.filter (fun p => !(p.2 == "") && !(p.2 == "none") && !(p.2 == "unknown"))).map
      (fun p => "[" ++ p.2 ++ " " ++ p.1 ++ "]"))

/-- One rendered line; `none` for an unknown entry type (the source
pushes no line). -/
def formatLine (e : Entry) : Option String :=
  let t := timeStr (parseISO e.timestamp)
  if e.type = "food" then
    let fs := match e.factors with
      | some f => f
      | none => mergeSpread (e.fodmaps.getD []) (e.other.getD [])
    let tagLabel := match e.tag with
      | some tg => if tg = "" then "" else " (" ++ tg ++ ")"
      | none => ""
    some ("  " ++ t ++ ": " ++ e.text ++ tagLabel ++ " " ++ factorTags fs)
  else if e.type = "symptom" then
    some ("  " ++ t ++ ": SYMPTOM - " ++ e.text ++ " [" ++ e.severity.getD "undefined" ++ "]")
  else if e.type = "note" then
    some ("  " ++ t ++ ": NOTE - " ++ e.text)
  else none

/-- Append an entry to its date group, creating the group at the end on
first encounter (JS object key insertion order). -/
def addToGroup (gs : List (String × List Entry)) (key : String) (e : Entry) :
    List (String × List Entry) :=
  match gs with
  | [] => [(key, [e])]
  | (k, l) :: rest =>
    if k = key then (k, l ++ [e]) :: rest else (k, l) :: addToGroup rest key e

/-- The `byDate` grouping of the source. -/
def groupByDate (entries : List Entry) : List (String × List Entry) :=
  entries.foldl (fun gs e => addToGroup gs (dateKey (parseISO e.timestamp)) e) []

/-- Stable insertion for the ascending sort by date value. -/
def insertAsc (e : Entry) : List Entry → List Entry
  | [] => [e]
  | x :: xs =>
    if dateOrdinal (parseISO e.timestamp) < dateOrdinal (parseISO x.timestamp) then
      e :: x :: xs
    else x :: insertAsc e xs

/-- The stable ascending sort `dayEntries.sort((a, b) => a.date - b.date)`. -/
def sortByDate (l : List Entry) : List Entry := l.foldr insertAsc []

/-- `formatEntriesForAnalysis`: a `\n`-joined line list; each date group
contributes a `"\n" ++ date` header followed by its sorted lines. -/
def formatEntriesForAnalysis (entries : List Entry) : String :=
  let groups := groupByDate entries
  let lines := groups.foldl
    (fun acc g => acc ++ ("\n" ++ g.1) :: (sortByDate g.2).filterMap formatLine) []
  String.intercalate "\n" lines

/-- The two entries of claim C8. -/
def c8Food : Entry :=
  { type := "food", text := "banana", timestamp := "2024-01-01T08:00:00Z",
    factors := some [("fructans", "low")] }

/-- The symptom entry of claim C8. -/
def c8Symptom : Entry :=
  { type := "symptom", text := "bloating", timestamp := "2024-01-01T20:00:00Z",
    severity := some "high" }

/-- C8: the formatter puts both entries in the single date group
`"Jan 1"`, in ascending time order, the food line showing
`[low fructans]` and the symptom line showing `[high]`. -/
theorem formatEntries_c8 :
    groupByDate [c8Food, c8Symptom] = [("Jan 1", [c8Food, c8Symptom])] ∧
    formatEntriesForAnalysis [c8Food, c8Symptom] =
      "\nJan 1\n  8:00 AM: banana [low fructans]\n  8:00 PM: SYMPTOM - bloating [high]" :=
  ⟨by decide, by decide⟩
